/-
  Verification of the gtags-hopper extension core (src/extension.ts,
  second revision of the file) against its natural-language specification.

  The embedding models:
  * `OptimizedHistory`           — bounded jump-history stack;
  * `getCurrentFunctionScope`    — function-scope locator (brace balancing);
  * `searchSymbolInRange`        — priority-ranked local symbol search;
  * `GLOBAL_OUTPUT_REGEX` parse  — external-tool output line parsing;
  * `jumpToDefinition`           — orchestration / fallback semantics.

  Documents are modelled as lists of lines (`List String`), matching
  `document.getText().split('\n')` in the source; character-level JS regex
  tests are hand-translated to executable scanners over `List Char`, under
  the standing assumption (true for symbols produced by
  `getWordRangeAtPosition`) that the searched symbol is a nonempty string of
  word characters `[A-Za-z0-9_]`, so the interpolated regexes match it
  literally.
-/
import Mathlib

namespace GtagsHopper

/-! ### Character classes and low-level string helpers -/

/-- JS `\w` word character class: `[A-Za-z0-9_]` (ASCII). -/
def wordChar (c : Char) : Bool :=
  ('a' ≤ c && c ≤ 'z') || ('A' ≤ c && c ≤ 'Z') || ('0' ≤ c && c ≤ '9') || c = '_'

/-- JS `\s` whitespace class, restricted to the ASCII members that occur in
source text: space, tab, newline, carriage return, vertical tab, form feed. -/
def jsSpace (c : Char) : Bool :=
  c = ' ' || c = '\t' || c = '\n' || c = '\r' || c = '\x0b' || c = '\x0c'

/-- `pat` is a prefix of `l` (literal character comparison). -/
def startsWithL : List Char → List Char → Bool
  | [], _ => true
  | _ :: _, [] => false
  | p :: ps, c :: cs => p = c && startsWithL ps cs

/-- `pat` occurs as a contiguous substring of `l`
(JS `String.prototype.includes`). -/
def listContains (pat : List Char) : List Char → Bool
  | [] => startsWithL pat []
  | c :: cs => startsWithL pat (c :: cs) || listContains pat cs

/-- JS `String.prototype.trim` on a character list. -/
def jsTrim (l : List Char) : List Char :=
  ((l.dropWhile jsSpace).reverse.dropWhile jsSpace).reverse

/-- JS `trim` on a `String`. -/
def jsTrimStr (s : String) : String :=
  String.mk (jsTrim s.data)

/-- Decimal value of a digit string (JS `parseInt(·, 10)` on an
all-digit string). -/
def natOfDigits (l : List Char) : Nat :=
  l.foldl (fun n c => n * 10 + (c.toNat - '0'.toNat)) 0

/-! ### Bounded history stack (`class OptimizedHistory` in the source)

The TS class keeps a physical array `items` and a logical front cursor
`startIndex`; `push` appends and, when the **physical** array length is
already at `maxSize`, advances the cursor; `pop` pops from the physical back
after checking that a valid element remains. -/

structure OptimizedHistory (T : Type) where
  items : List T
  startIndex : Nat
deriving DecidableEq

namespace OptimizedHistory

/-- Initial state: `items = []`, `startIndex = 0`. -/
def empty (T : Type) : OptimizedHistory T := ⟨[], 0⟩

/-- `push(item, maxSize)` from the source: if `items.length >= maxSize`,
advance `startIndex` (logical eviction of the oldest element), then append. -/
def push (h : OptimizedHistory T) (item : T) (maxSize : Nat) : OptimizedHistory T :=
  { items := h.items ++ [item]
    startIndex := if maxSize ≤ h.items.length then h.startIndex + 1 else h.startIndex }

/-- `pop()` from the source: `undefined` when `items.length <= startIndex`,
otherwise remove and return the physically last element.  Returns the popped
value together with the successor state. -/
def pop (h : OptimizedHistory T) : Option T × OptimizedHistory T :=
  if h.items.length ≤ h.startIndex then (none, h)
  else (h.items.getLast?, { h with items := h.items.dropLast })

/-- `get length()` from the source: `Math.max(0, items.length - startIndex)`;
truncated `Nat` subtraction models the `Math.max` clamp exactly. -/
def length (h : OptimizedHistory T) : Nat :=
  h.items.length - h.startIndex

/-- `clear()` from the source. -/
def clear (_h : OptimizedHistory T) : OptimizedHistory T := ⟨[], 0⟩

/-- The not-yet-evicted (valid) elements, oldest first. -/
def validItems (h : OptimizedHistory T) : List T :=
  h.items.drop h.startIndex

/-- Bookkeeping well-formedness: the front cursor never passes the
physical end. -/
def WF (h : OptimizedHistory T) : Prop :=
  h.startIndex ≤ h.items.length

end OptimizedHistory

/-- An operation on the history stack; `push` carries the `maxSize` argument
passed at that call (in the source it is read from configuration per call). -/
inductive HistOp (T : Type) where
  | push (x : T) (maxSize : Nat)
  | pop
deriving DecidableEq

/-- Run a sequence of operations from the empty history. -/
def runOps {T : Type} (ops : List (HistOp T)) : OptimizedHistory T :=
  ops.foldl
    (fun s op =>
      match op with
      | .push x m => s.push x m
      | .pop => (s.pop).2)
    (OptimizedHistory.empty T)

/-- An operation for runs in which every push uses one fixed capacity. -/
inductive FixedOp (T : Type) where
  | push (x : T)
  | pop
deriving DecidableEq

/-- Run a sequence of operations from the empty history, every push using
the same capacity `m`. -/
def runFixed {T : Type} (m : Nat) (ops : List (FixedOp T)) : OptimizedHistory T :=
  ops.foldl
    (fun s op =>
      match op with
      | .push x => s.push x m
      | .pop => (s.pop).2)
    (OptimizedHistory.empty T)

/-! ### Invariant lemmas for the history stack -/

theorem push_wf {T : Type} (h : OptimizedHistory T) (x : T) (m : Nat)
    (hwf : h.WF) : (h.push x m).WF := by
  unfold OptimizedHistory.WF OptimizedHistory.push at *
  simp only [List.length_append, List.length_cons]
  split <;> omega

theorem pop_wf {T : Type} (h : OptimizedHistory T) (hwf : h.WF) :
    (h.pop).2.WF := by
  unfold OptimizedHistory.WF OptimizedHistory.pop at *
  split
  · exact hwf
  · simp only [List.length_dropLast]
    omega

theorem runOps_wf {T : Type} (ops : List (HistOp T)) : (runOps ops).WF := by
  suffices H : ∀ (s : OptimizedHistory T), s.WF →
      (ops.foldl (fun s op =>
        match op with
        | .push x m => s.push x m
        | .pop => (s.pop).2) s).WF by
    exact H _ (by simp [OptimizedHistory.empty, OptimizedHistory.WF])
  induction ops with
  | nil => intro s hs; simpa using hs
  | cons op rest ih =>
    intro s hs
    cases op with
    | push x m => exact ih _ (push_wf s x m hs)
    | pop => exact ih _ (pop_wf s hs)

theorem push_length_le {T : Type} (h : OptimizedHistory T) (x : T) (m : Nat)
    (hlen : h.length ≤ m) : (h.push x m).length ≤ m := by
  have hl : h.items.length - h.startIndex ≤ m := hlen
  show (h.push x m).items.length - (h.push x m).startIndex ≤ m
  by_cases hc : m ≤ h.items.length
  · simp only [OptimizedHistory.push, if_pos hc, List.length_append, List.length_cons, List.length_nil]
    omega
  · simp only [OptimizedHistory.push, if_neg hc, List.length_append, List.length_cons, List.length_nil]
    omega

theorem pop_length_le {T : Type} (h : OptimizedHistory T) :
    (h.pop).2.length ≤ h.length := by
  unfold OptimizedHistory.length OptimizedHistory.pop
  split
  · exact Nat.le_refl _
  · simp only [List.length_dropLast]
    omega

theorem runFixed_length_le {T : Type} (m : Nat) (ops : List (FixedOp T)) :
    (runFixed m ops).length ≤ m := by
  suffices H : ∀ (s : OptimizedHistory T), s.length ≤ m →
      (ops.foldl (fun s op =>
        match op with
        | .push x => s.push x m
        | .pop => (s.pop).2) s).length ≤ m by
    exact H _ (by simp [OptimizedHistory.empty, OptimizedHistory.length])
  induction ops with
  | nil => intro s hs; simpa using hs
  | cons op rest ih =>
    intro s hs
    cases op with
    | push x => exact ih _ (push_length_le s x m hs)
    | pop => exact ih _ (Nat.le_trans (pop_length_le s) hs)

/-- A push onto a full (or over-full) history evicts exactly the oldest
valid element: the valid contents become the old ones minus the front,
plus the new item at the back. -/
theorem push_evicts_oldest {T : Type} (h : OptimizedHistory T) (x : T) (m : Nat)
    (hm : 0 < m) (hfull : m ≤ h.length) :
    (h.push x m).validItems = h.validItems.drop 1 ++ [x] := by
  unfold OptimizedHistory.length at hfull
  have hlt : h.startIndex < h.items.length := by omega
  have hcond : m ≤ h.items.length := by omega
  unfold OptimizedHistory.push OptimizedHistory.validItems
  simp only [if_pos hcond]
  rw [List.drop_append_of_le_length (by omega)]
  congr 1
  rw [List.drop_drop]

theorem getLast?_drop_of_lt {α : Type} :
    ∀ (l : List α) (n : Nat), n < l.length → (l.drop n).getLast? = l.getLast? := by
  intro l
  induction l with
  | nil => intro n hn; simp at hn
  | cons a t ih =>
    intro n hn
    cases n with
    | zero => rfl
    | succ m =>
      simp only [List.length_cons, Nat.succ_lt_succ_iff] at hn
      cases t with
      | nil => simp at hn
      | cons b t' =>
        rw [List.drop_succ_cons, List.getLast?_cons_cons]
        exact ih (m) hn

theorem drop_dropLast_comm {α : Type} (l : List α) (n : Nat) :
    l.dropLast.drop n = (l.drop n).dropLast := by
  rw [List.dropLast_eq_take, List.drop_take, List.dropLast_eq_take, List.length_drop]
  congr 1
  omega

theorem mem_of_getLast?_eq_some {α : Type} :
    ∀ (l : List α) (x : α), l.getLast? = some x → x ∈ l := by
  intro l
  induction l with
  | nil => intro x hx; simp at hx
  | cons a t ih =>
    intro x hx
    cases t with
    | nil =>
      simp only [List.getLast?_singleton, Option.some.injEq] at hx
      simp [hx]
    | cons b t' =>
      rw [List.getLast?_cons_cons] at hx
      exact List.mem_cons_of_mem a (ih x hx)

theorem pop_fst_eq {T : Type} (h : OptimizedHistory T) :
    (h.pop).1 = h.validItems.getLast? := by
  unfold OptimizedHistory.pop OptimizedHistory.validItems
  split
  · rename_i hc
    rw [List.drop_eq_nil_of_le hc]
    rfl
  · rename_i hc
    push_neg at hc
    exact (getLast?_drop_of_lt h.items h.startIndex hc).symm

theorem pop_snd_valid {T : Type} (h : OptimizedHistory T) :
    (h.pop).2.validItems = h.validItems.dropLast := by
  unfold OptimizedHistory.pop OptimizedHistory.validItems
  split
  · rename_i hc
    rw [List.drop_eq_nil_of_le hc]
    rfl
  · exact drop_dropLast_comm h.items h.startIndex

/-! ### Claim C3 -/

/-- **C3, counterexample.**  The claim quantifies over sequences of
`push(item, maxSize)` with the `maxSize` of each call (the source reads it
from configuration per call).  `push` compares `maxSize` against the
*physical* array length, so after `push 0` and `push 1` with `maxSize = 2`,
a `push 2` with `maxSize = 1` leaves two valid elements: `length` exceeds
the `maxSize` given to that push. -/
theorem c3_counterexample :
    (runOps [HistOp.push 0 2, HistOp.push 1 2, HistOp.push 2 1]).length = 2 ∧
    ¬((runOps [HistOp.push 0 2, HistOp.push 1 2, HistOp.push 2 1]).length ≤ 1) := by
  decide

/-- **C3 (amended).**  For every sequence of `push`/`pop` operations in
which every push uses one fixed capacity `m`: after any push, `length`
never exceeds `m`; and when the size is at or above `m` before a push (and
`m > 0`), the push logically evicts exactly the oldest not-yet-evicted
element (FIFO eviction) while keeping size ≤ `m`. -/
theorem c3_claim {T : Type} (m : Nat) (ops : List (FixedOp T)) (x : T) :
    ((runFixed m ops).push x m).length ≤ m ∧
    (0 < m → m ≤ (runFixed m ops).length →
      ((runFixed m ops).push x m).validItems =
        (runFixed m ops).validItems.drop 1 ++ [x]) := by
  refine ⟨push_length_le _ x m (runFixed_length_le m ops), ?_⟩
  intro hm hfull
  exact push_evicts_oldest _ x m hm hfull

theorem c3_witness :
    (0 < 2 ∧ 2 ≤ (runFixed 2 [FixedOp.push 10, FixedOp.push 11]).length) ∧
    ((runFixed 2 [FixedOp.push 10, FixedOp.push 11]).push 12 2).length ≤ 2 ∧
    ((runFixed 2 [FixedOp.push 10, FixedOp.push 11]).push 12 2).validItems =
      (runFixed 2 [FixedOp.push 10, FixedOp.push 11]).validItems.drop 1 ++ [12] := by
  have h := c3_claim (T := Nat) 2 [FixedOp.push 10, FixedOp.push 11] 12
  exact ⟨⟨by decide, by decide⟩, h.1, h.2 (by decide) (by decide)⟩

/-! ### Claim C4 -/

/-- **C4.**  For every sequence of `push`/`pop` operations: `pop` returns
the most recently pushed still-valid element (the last of `validItems`),
returning `none` (JS `undefined`) on an empty or fully-evicted stack; the
successor state loses exactly that element; and any returned element is a
valid (never an evicted) one. -/
theorem c4_claim {T : Type} (ops : List (HistOp T)) :
    ((runOps ops).pop).1 = (runOps ops).validItems.getLast? ∧
    ((runOps ops).pop).2.validItems = (runOps ops).validItems.dropLast ∧
    (∀ x, ((runOps ops).pop).1 = some x → x ∈ (runOps ops).validItems) := by
  refine ⟨pop_fst_eq _, pop_snd_valid _, ?_⟩
  intro x hx
  rw [pop_fst_eq _] at hx
  exact mem_of_getLast?_eq_some _ x hx

theorem c4_witness :
    ((runOps [HistOp.push 5 10, HistOp.push 7 10]).pop).1 =
      (runOps [HistOp.push 5 10, HistOp.push 7 10]).validItems.getLast? ∧
    ((runOps [HistOp.push 5 10, HistOp.push 7 10]).pop).2.validItems =
      (runOps [HistOp.push 5 10, HistOp.push 7 10]).validItems.dropLast ∧
    7 ∈ (runOps [HistOp.push 5 10, HistOp.push 7 10]).validItems := by
  have h := c4_claim (T := Nat) [HistOp.push 5 10, HistOp.push 7 10]
  exact ⟨h.1, h.2.1, h.2.2 7 (by decide)⟩

/-! ### Regex scanners for `searchSymbolInRange`

Each JS regex used by the source is hand-translated to an executable
scanner.  `anyPosWithPrev` models an unanchored `RegExp.test` — the pattern
may start at any position; the previous character is carried along for `\b`
word-boundary checks.  All searched symbols are nonempty words
(`[A-Za-z0-9_]+`), so greedily consuming each character class is equivalent
to full backtracking for these patterns (adjacent classes are disjoint). -/

/-- `\b` before a symbol occurrence (the symbol starts with a word
character): previous character absent or non-word. -/
def boundaryBefore : Option Char → Bool
  | none => true
  | some c => !wordChar c

/-- `\b` after a symbol occurrence (the symbol ends with a word character):
rest of line empty or starting with a non-word character. -/
def boundaryAfter : List Char → Bool
  | [] => true
  | c :: _ => !wordChar c

/-- Try `test` at every position of the line (with its previous
character). -/
def anyPosWithPrev (test : Option Char → List Char → Bool) :
    Option Char → List Char → Bool
  | prev, [] => test prev []
  | prev, c :: cs => test prev (c :: cs) || anyPosWithPrev test (some c) cs

/-- `\bSYM\b` anchored at the current position. -/
def symHere (sym : List Char) (prev : Option Char) (l : List Char) : Bool :=
  boundaryBefore prev && startsWithL sym l && boundaryAfter (l.drop sym.length)

/-- `new RegExp(&quot;\bSYM\b&quot;).test(line)`: whole-word occurrence of the
symbol. -/
def wholeWordTest (sym : List Char) (l : List Char) : Bool :=
  anyPosWithPrev (symHere sym) none l

/-- `[^BAD]*\bSYM\b` from the current position: a whole-word occurrence of
the symbol reachable without crossing the character `bad`. -/
def findSymSkip (bad : Char) (sym : List Char) : Option Char → List Char → Bool
  | prev, [] => symHere sym prev []
  | prev, c :: cs =>
    symHere sym prev (c :: cs) || (c ≠ bad && findSymSkip bad sym (some c) cs)

/-- Tail of the parameter pattern `\w+\s+SYM\s*[,)]` at the current
position. -/
def paramTailTest (sym : List Char) (l : List Char) : Bool :=
  let w := l.takeWhile wordChar
  let r1 := l.dropWhile wordChar
  let sp := r1.takeWhile jsSpace
  let r2 := r1.dropWhile jsSpace
  !w.isEmpty && !sp.isEmpty && startsWithL sym r2 &&
    (match (r2.drop sym.length).dropWhile jsSpace with
     | c :: _ => c = ',' || c = ')'
     | [] => false)

/-- Parameter-position pattern `\b\w+\s+SYM\s*[,)]` (source: priority 1). -/
def paramPatternTest (sym : List Char) (line : List Char) : Bool :=
  anyPosWithPrev (fun prev l => boundaryBefore prev && paramTailTest sym l) none line

/-- The fixed set of recognized type keywords of the declaration pattern. -/
def typeKeywords : List (List Char) :=
  [['i','n','t'], ['c','h','a','r'], ['f','l','o','a','t'],
   ['d','o','u','b','l','e'], ['v','o','i','d'], ['s','t','r','i','n','g'],
   ['a','u','t','o'], ['c','o','n','s','t'], ['l','e','t'], ['v','a','r'],
   ['b','o','o','l'], ['s','i','z','e','_','t']]

/-- Tail of the declaration pattern
`(int|char|float|double|void|string|auto|const|let|var|bool|size_t)\s+[^=]*\bSYM\b`
at the current position. -/
def declTailTest (sym : List Char) (l : List Char) : Bool :=
  typeKeywords.any (fun kw =>
    startsWithL kw l &&
      (match l.drop kw.length with
       | c :: cs => jsSpace c && findSymSkip '=' sym (some c) cs
       | [] => false))

/-- Typed variable declaration pattern (source: priority 2). -/
def declPatternTest (sym : List Char) (line : List Char) : Bool :=
  anyPosWithPrev (fun prev l => boundaryBefore prev && declTailTest sym l) none line

/-- Tail of the loop-variable pattern `for\s*\([^;]*\bSYM\b` at the current
position (the regex has no `\b` before `for`). -/
def forTailTest (sym : List Char) (l : List Char) : Bool :=
  startsWithL ['f','o','r'] l &&
    (match (l.drop 3).dropWhile jsSpace with
     | '(' :: cs => findSymSkip ';' sym (some '(') cs
     | _ => false)

/-- `for`-loop variable pattern (source: priority 2). -/
def forPatternTest (sym : List Char) (line : List Char) : Bool :=
  anyPosWithPrev (fun _prev l => forTailTest sym l) none line

/-- Tail of the assignment pattern `SYM\s*=` at the current position. -/
def assignTailTest (sym : List Char) (l : List Char) : Bool :=
  startsWithL sym l &&
    (match (l.drop sym.length).dropWhile jsSpace with
     | c :: _ => c = '='
     | [] => false)

/-- Assignment pattern `\bSYM\s*=` (source: priority 5). -/
def assignPatternTest (sym : List Char) (line : List Char) : Bool :=
  anyPosWithPrev (fun prev l => boundaryBefore prev && assignTailTest sym l) none line

/-- Tail of the call/definition pattern `SYM\s*\(` at the current
position. -/
def callTailTest (sym : List Char) (l : List Char) : Bool :=
  startsWithL sym l &&
    (match (l.drop sym.length).dropWhile jsSpace with
     | c :: _ => c = '('
     | [] => false)

/-- Call/definition pattern `\bSYM\s*\(` (source: priority 3). -/
def callPatternTest (sym : List Char) (line : List Char) : Bool :=
  anyPosWithPrev (fun prev l => boundaryBefore prev && callTailTest sym l) none line

/-- Output/return usage check:
`line.includes('printf') || ... ('scanf') || ... ('return') || ... ('cout')`
(source: priority 50). -/
def usageKeywordTest (line : List Char) : Bool :=
  listContains ['p','r','i','n','t','f'] line ||
    listContains ['s','c','a','n','f'] line ||
    listContains ['r','e','t','u','r','n'] line ||
    listContains ['c','o','u','t'] line

/-- The priority cascade of `searchSymbolInRange`, in source order (first
match wins): parameter → 1; declaration → 2; loop variable → 2;
assignment → 5; call/definition → 3; output keyword → 50; default 100. -/
def classifyPriority (sym : List Char) (line : List Char) : Nat :=
  if paramPatternTest sym line then 1
  else if declPatternTest sym line then 2
  else if forPatternTest sym line then 2
  else if assignPatternTest sym line then 5
  else if callPatternTest sym line then 3
  else if usageKeywordTest line then 50
  else 100

/-- The record pushed for each matching line
(`{label, description, line, priority}` in the source). -/
structure SymbolMatch where
  label : String
  description : String
  line : Nat
  priority : Nat
deriving DecidableEq

/-- Per-line body of the scan loop: skip full-line comment openers
(trimmed line starting `//` or `/*`) and lines without a whole-word
occurrence; otherwise build the match record. -/
def lineMatch (sym : String) (i : Nat) (line : String) : Option SymbolMatch :=
  if startsWithL ['/','/'] (jsTrim line.data) || startsWithL ['/','*'] (jsTrim line.data)
    then none
  else if !wholeWordTest sym.data line.data then none
  else some { label := "Line " ++ toString (i + 1)
              description := String.mk (jsTrim line.data)
              line := i
              priority := classifyPriority sym.data line.data }

/-- The line indices visited by
`for (let i = startLine; i <= Math.min(endLine, lines.length - 1); i++)`:
ascending `i` with `s ≤ i`, `i ≤ e` and `i < len` (for `len ≥ 1` this is
exactly `i ≤ min e (len - 1)`, and for `len = 0` the JS loop bound is `-1`
so no index is visited — matching this definition). -/
def scanIndices (s e len : Nat) : List Nat :=
  (List.range len).filter (fun i => s ≤ i && i ≤ e)

/-- The collection phase of `searchSymbolInRange`: all match records of
in-range lines, in line order. -/
def collectMatches (sym : String) (lines : List String) (s e : Nat) :
    List SymbolMatch :=
  (scanIndices s e lines.length).filterMap (fun i => lineMatch sym i (lines.getD i ""))

/-- Comparison used by `results.sort((a, b) => a.priority - b.priority)`. -/
def prioLE (a b : SymbolMatch) : Prop := a.priority ≤ b.priority

instance : DecidableRel prioLE := fun a b => Nat.decLe a.priority b.priority

instance : IsTotal SymbolMatch prioLE := ⟨fun a b => Nat.le_total a.priority b.priority⟩

instance : IsTrans SymbolMatch prioLE := ⟨fun _ _ _ => Nat.le_trans⟩

/-- Final phase of `searchSymbolInRange`: with the sorted results, keep
exactly the entries sharing the head's (best) priority; empty input stays
empty. -/
def bestOf : List SymbolMatch → List SymbolMatch
  | [] => []
  | b :: rest => (b :: rest).filter (fun r => r.priority == b.priority)

/-- `searchSymbolInRange(symbol, document, startLine = 0,
endLine = document.lineCount - 1)` from the source.  JS `Array.prototype.sort`
is specified stable, and a stable sort by a total preorder has a unique
result, so the stable `insertionSort` models it exactly. -/
def searchSymbolInRange (sym : String) (lines : List String)
    (startLine : Nat := 0) (endLine : Nat := lines.length - 1) :
    List SymbolMatch :=
  bestOf (List.insertionSort prioLE (collectMatches sym lines startLine endLine))

/-! ### Helper lemmas for the ranked search -/

theorem mem_collect_bounds (sym : String) (lines : List String) (s e : Nat)
    (r : SymbolMatch) (hr : r ∈ collectMatches sym lines s e) :
    s ≤ r.line ∧ r.line ≤ e ∧ r.line < lines.length := by
  unfold collectMatches scanIndices at hr
  rcases List.mem_filterMap.mp hr with ⟨i, hi, hsome⟩
  rcases List.mem_filter.mp hi with ⟨hrange, hcond⟩
  have hi_lt : i < lines.length := List.mem_range.mp hrange
  have hcond' : s ≤ i ∧ i ≤ e := by
    simpa using hcond
  have hline : r.line = i := by
    unfold lineMatch at hsome
    split at hsome
    · exact absurd hsome (by simp)
    · split at hsome
      · exact absurd hsome (by simp)
      · cases hsome
        rfl
  rw [hline]
  exact ⟨hcond'.1, hcond'.2, hi_lt⟩

theorem collect_eq_nil_of_empty_range (sym : String) (lines : List String)
    (s e : Nat) (h : e < s ∨ lines.length ≤ s) :
    collectMatches sym lines s e = [] := by
  unfold collectMatches scanIndices
  have : List.filter (fun i => s ≤ i && i ≤ e) (List.range lines.length) = [] := by
    rw [List.filter_eq_nil_iff]
    intro i hi
    have hi_lt : i < lines.length := List.mem_range.mp hi
    simp only [Bool.and_eq_true, decide_eq_true_eq, not_and]
    intro hs
    cases h with
    | inl hlt => omega
    | inr hle => omega
  rw [this]
  rfl

theorem mem_search_mem_collect (sym : String) (lines : List String) (s e : Nat)
    (r : SymbolMatch) (hr : r ∈ searchSymbolInRange sym lines s e) :
    r ∈ collectMatches sym lines s e := by
  unfold searchSymbolInRange at hr
  have hperm := List.perm_insertionSort prioLE (collectMatches sym lines s e)
  cases hs : List.insertionSort prioLE (collectMatches sym lines s e) with
  | nil =>
    rw [hs] at hr
    simp [bestOf] at hr
  | cons b rest =>
    rw [hs] at hr
    simp only [bestOf] at hr
    have := (List.mem_filter.mp hr).1
    rw [hs] at hperm
    exact hperm.mem_iff.mp this

/-! ### Claim C1 -/

/-- **C1.**  The ranked search collects all whole-word matches in range,
and returns exactly the subset of collected matches sharing the single
lowest priority value: an element is returned iff it is a collected match
whose priority is minimal over all collected matches (so co-equal best
matches are all returned), and an empty collection yields the empty result
set rather than an error. -/
theorem c1_claim (sym : String) (lines : List String) (s e : Nat) :
    (collectMatches sym lines s e = [] → searchSymbolInRange sym lines s e = []) ∧
    ∀ r, (r ∈ searchSymbolInRange sym lines s e ↔
      r ∈ collectMatches sym lines s e ∧
        ∀ r' ∈ collectMatches sym lines s e, r.priority ≤ r'.priority) := by
  have hperm := List.perm_insertionSort prioLE (collectMatches sym lines s e)
  have hsort := List.sorted_insertionSort prioLE (collectMatches sym lines s e)
  constructor
  · intro h
    unfold searchSymbolInRange
    rw [h]
    rfl
  · intro r
    cases hs : List.insertionSort prioLE (collectMatches sym lines s e) with
    | nil =>
      rw [hs] at hperm
      have hcnil : collectMatches sym lines s e = [] := List.perm_nil.mp hperm.symm
      unfold searchSymbolInRange
      rw [hcnil]
      simp [bestOf, List.insertionSort]
    | cons b rest =>
      rw [hs] at hperm hsort
      have hbcol : b ∈ collectMatches sym lines s e :=
        hperm.mem_iff.mp (List.mem_cons_self b rest)
      have hmin : ∀ r' ∈ collectMatches sym lines s e, b.priority ≤ r'.priority := by
        intro r' hr'
        have hr's : r' ∈ b :: rest := hperm.mem_iff.mpr hr'
        rcases List.mem_cons.mp hr's with heq | hmem
        · rw [heq]
        · exact (List.sorted_cons.mp hsort).1 r' hmem
      have hsearch : searchSymbolInRange sym lines s e =
          (b :: rest).filter (fun r => r.priority == b.priority) := by
        unfold searchSymbolInRange
        rw [hs]
        rfl
      rw [hsearch]
      simp only [List.mem_filter, beq_iff_eq]
      constructor
      · rintro ⟨hmem, heq⟩
        exact ⟨hperm.mem_iff.mp hmem, fun r' hr' => heq ▸ hmin r' hr'⟩
      · rintro ⟨hrcol, hrmin⟩
        exact ⟨hperm.mem_iff.mpr hrcol,
          Nat.le_antisymm (hrmin b hbcol) (hmin r hrcol)⟩

theorem c1_witness :
    searchSymbolInRange "x" [] 0 0 = [] ∧
    ⟨"Line 1", "int count = 0;", 0, 2⟩ ∈
      searchSymbolInRange "count" ["int count = 0;", "count++;"] 0 1 := by
  constructor
  · exact (c1_claim "x" [] 0 0).1 (by decide)
  · exact ((c1_claim "count" ["int count = 0;", "count++;"] 0 1).2 _).mpr
      ⟨by decide, by decide⟩

/-! ### Claim C2 -/

/-- The cascade exactly as the claim orders it: parameter-position → 1;
typed declaration **or** for-loop variable → 2; assignment → 5;
call/definition → 3; recognized output/return keyword → 50; else 100. -/
def classifyPrioritySpec (sym : List Char) (line : List Char) : Nat :=
  if paramPatternTest sym line then 1
  else if declPatternTest sym line || forPatternTest sym line then 2
  else if assignPatternTest sym line then 5
  else if callPatternTest sym line then 3
  else if usageKeywordTest line then 50
  else 100

/-- The document of the claim's scenario: symbol `count` appears in range
[5, 20] only as the `for`-loop variable on line 10 and inside a `printf`
call on line 15. -/
def scenarioDoc : List String :=
  ["void demo(void) \x7b", "", "", "", "", "", "", "", "", "",
   "  for (int count = 0; count < 10; count++) \x7b",
   "", "", "", "",
   "    printf(\"%d\\n\", count);",
   "", "  \x7d", "\x7d", "", ""]

/-- **C2.**  The per-line classification is the claim's first-match-wins
cascade (parameter → 1; typed declaration or loop variable → 2;
assignment → 5; call → 3; output keyword → 50; else 100); and in the
claim's scenario the search over [5, 20] returns exactly line 10 with
priority 2, excluding the priority-50 `printf` usage on line 15. -/
theorem c2_claim :
    (∀ sym line, classifyPriority sym line = classifyPrioritySpec sym line) ∧
    searchSymbolInRange "count" scenarioDoc 5 20 =
      [⟨"Line 11", "for (int count = 0; count < 10; count++) \x7b", 10, 2⟩] := by
  constructor
  · intro sym line
    unfold classifyPriority classifyPrioritySpec
    cases h1 : paramPatternTest sym line <;>
      cases h2 : declPatternTest sym line <;>
        cases h3 : forPatternTest sym line <;>
          simp [h1, h2, h3]
  · decide

/-! ### Claim C9 -/

/-- **C9.**  The ranked search is deterministic and depends only on its
read-only inputs: two runs over documents that agree on every line the scan
can read (equal line count, equal lines in the clamped range) produce
identical ordered output.  With `d1 = d2` this is literally "two runs on
identical input yield identical output"; the embedding of the source as a
pure function is itself the no-input-mutation part of the contract (the
source only reads `document`, `symbol` and the bounds). -/
theorem c9_claim (sym : String) (d1 d2 : List String) (s e : Nat)
    (hlen : d1.length = d2.length)
    (hagree : ∀ i, s ≤ i → i ≤ e → i < d1.length → d1.getD i "" = d2.getD i "") :
    searchSymbolInRange sym d1 s e = searchSymbolInRange sym d2 s e := by
  suffices h : collectMatches sym d1 s e = collectMatches sym d2 s e by
    unfold searchSymbolInRange
    rw [h]
  unfold collectMatches
  rw [hlen]
  apply List.filterMap_congr
  intro i hi
  unfold scanIndices at hi
  rcases List.mem_filter.mp hi with ⟨hrange, hcond⟩
  have hi_lt : i < d2.length := List.mem_range.mp hrange
  have hcond' : s ≤ i ∧ i ≤ e := by
    simpa using hcond
  rw [hagree i hcond'.1 hcond'.2 (by omega)]

theorem c9_witness :
    searchSymbolInRange "count" ["alpha;", "int count;"] 1 1 =
      searchSymbolInRange "count" ["beta(count);", "int count;"] 1 1 := by
  exact c9_claim "count" ["alpha;", "int count;"] ["beta(count);", "int count;"] 1 1
    (by decide)
    (fun i h1 h2 h3 => by
      have : i = 1 := by omega
      subst this
      rfl)

/-! ### Claim C10 -/

/-- **C10.**  The scan is total and clamped: every returned match has a
line index between `startLine` and both `endLine` and the last document
line (no line index past the document end is ever produced), and an empty
effective range — `endLine < startLine`, or `startLine` at or past the
document end — yields the empty result set. -/
theorem c10_claim (sym : String) (lines : List String) (s e : Nat) :
    (∀ r ∈ searchSymbolInRange sym lines s e,
        s ≤ r.line ∧ r.line ≤ e ∧ r.line < lines.length) ∧
    ((e < s ∨ lines.length ≤ s) → searchSymbolInRange sym lines s e = []) := by
  constructor
  · intro r hr
    exact mem_collect_bounds sym lines s e r (mem_search_mem_collect sym lines s e r hr)
  · intro h
    unfold searchSymbolInRange
    rw [collect_eq_nil_of_empty_range sym lines s e h]
    rfl

theorem c10_witness :
    (5 ≤ (⟨"Line 6", "int count;", 5, 2⟩ : SymbolMatch).line ∧
      (⟨"Line 6", "int count;", 5, 2⟩ : SymbolMatch).line ≤ 9 ∧
      (⟨"Line 6", "int count;", 5, 2⟩ : SymbolMatch).line <
        (["", "", "", "", "", "int count;"] : List String).length) ∧
    searchSymbolInRange "count" ["int count;"] 3 1 = [] := by
  constructor
  · exact (c10_claim "count" ["", "", "", "", "", "int count;"] 5 9).1
      ⟨"Line 6", "int count;", 5, 2⟩ (by decide)
  · exact (c10_claim "count" ["int count;"] 3 1).2 (by decide)

/-! ### Function-scope locator (`getCurrentFunctionScope`)

The backward scan applies the loose function-head regex
`^[^\/\*]*\b\w+\s*\([^)]*\)\s*\{?` to each trimmed line and additionally
rejects lines containing (as plain substrings) `if`, `while`, `for` or
`switch`.  The forward scan tracks brace depth character by character from
the chosen start line and stops at the first `}` that brings the depth to
exactly 0 on a line strictly after the start line. -/

/-- Tail of the function-head pattern at the current position:
`\w+\s*\([^)]*\)` (the trailing `\s*\{?` of the regex always matches and
imposes nothing). -/
def functionHeadTail (l : List Char) : Bool :=
  let w := l.takeWhile wordChar
  let r2 := (l.dropWhile wordChar).dropWhile jsSpace
  !w.isEmpty &&
    (match r2 with
     | '(' :: cs => cs.contains ')'
     | _ => false)

/-- Scan for `[^\/\*]*\b` followed by the function-head tail: the head may
start at any position reachable without crossing `/` or `*`, at a word
boundary. -/
def functionPatternScan : Option Char → List Char → Bool
  | prev, [] => boundaryBefore prev && functionHeadTail []
  | prev, c :: cs =>
    (boundaryBefore prev && functionHeadTail (c :: cs)) ||
      (c ≠ '/' && c ≠ '*' && functionPatternScan (some c) cs)

/-- Test of `/^[^\/\*]*\b\w+\s*\([^)]*\)\s*\{?/` on a line. -/
def functionPatternTest (l : List Char) : Bool :=
  functionPatternScan none l

/-- The `isFunction` check of the backward scan: the pattern holds on the
trimmed line and none of `if`, `while`, `for`, `switch` occurs as a
substring of it. -/
def isFunctionLine (line : String) : Bool :=
  functionPatternTest (jsTrim line.data) &&
    !listContains ['i','f'] (jsTrim line.data) &&
    !listContains ['w','h','i','l','e'] (jsTrim line.data) &&
    !listContains ['f','o','r'] (jsTrim line.data) &&
    !listContains ['s','w','i','t','c','h'] (jsTrim line.data)

/-- Backward scan `for (let i = currentLine; i >= 0; i--)`: nearest line at
or below the index satisfying `isFunctionLine` (out-of-document indices read
as the empty line, which never matches). -/
def findFunctionStart (lines : List String) : Nat → Option Nat
  | 0 => if isFunctionLine (lines.getD 0 "") then some 0 else none
  | i + 1 =>
    if isFunctionLine (lines.getD (i + 1) "") then some (i + 1)
    else findFunctionStart lines i

/-- Character loop of the forward scan: `{` increments, `}` decrements and,
when the decremented level is exactly 0 and ends are allowed on this line
(`i > functionStart`), reports success and stops (the `break`). -/
def procChars : List Char → Int → Bool → Int × Bool
  | [], lvl, _ => (lvl, false)
  | c :: cs, lvl, allow =>
    if c = '{' then procChars cs (lvl + 1) allow
    else if c = '}' then
      if allow && decide (lvl - 1 = 0) then (lvl - 1, true)
      else procChars cs (lvl - 1) allow
    else procChars cs lvl allow

/-- Line loop of the forward scan, carrying the running brace level;
returns the index of the line on which the scan stopped, if any. -/
def findEndGo (start : Nat) : List String → Nat → Int → Option Nat
  | [], _, _ => none
  | line :: rest, i, lvl =>
    let p := procChars line.data lvl (decide (start < i))
    if p.2 then some i else findEndGo start rest (i + 1) p.1

/-- Forward scan from the start line with initial level 0. -/
def findEnd (lines : List String) (start : Nat) : Option Nat :=
  findEndGo start (lines.drop start) start 0

/-- `getCurrentFunctionScope` from the source: backward scan for the start
line; forward brace scan for the end line, defaulting to the last line of
the document when no balancing close is found. -/
def getCurrentFunctionScope (lines : List String) (currentLine : Nat) :
    Option (Nat × Nat) :=
  match findFunctionStart lines currentLine with
  | none => none
  | some st =>
    match findEnd lines st with
    | some en => some (st, en)
    | none => some (st, lines.length - 1)

/-! ### Declarative description of the forward scan (for C6) -/

/-- Net brace delta of a line: `{` count minus `}` count. -/
def lineDelta : List Char → Int
  | [] => 0
  | c :: cs => (if c = '{' then 1 else if c = '}' then (-1 : Int) else 0) + lineDelta cs

/-- Scanning the characters with a running level, some `}` brings the level
to exactly 0 (the depth "returns to zero at a closing brace"). -/
def hitsZero : List Char → Int → Bool
  | [], _ => false
  | c :: cs, lvl =>
    if c = '{' then hitsZero cs (lvl + 1)
    else if c = '}' then
      if lvl - 1 = 0 then true else hitsZero cs (lvl - 1)
    else hitsZero cs lvl

/-- Brace level at the beginning of line `i`, tracking from the beginning
of line `start` (sum of the deltas of lines `start ≤ k < i`). -/
def levelFrom (lines : List String) (start i : Nat) : Int :=
  (List.range' start (i - start)).foldl
    (fun a k => a + lineDelta (lines.getD k "").data) 0

/-- Line `j` (strictly after the start line, inside the document) is one on
which the tracked brace depth returns to exactly zero at a closing brace. -/
def ClosesAt (lines : List String) (start j : Nat) : Prop :=
  start < j ∧ j < lines.length ∧
    hitsZero (lines.getD j "").data (levelFrom lines start j) = true

instance (lines : List String) (start j : Nat) :
    Decidable (ClosesAt lines start j) := by
  unfold ClosesAt
  infer_instance

/-! ### Lemmas relating the scans to their descriptions -/

theorem procChars_snd (cs : List Char) (lvl : Int) (allow : Bool) :
    (procChars cs lvl allow).2 = (allow && hitsZero cs lvl) := by
  induction cs generalizing lvl with
  | nil => simp [procChars, hitsZero]
  | cons c cs ih =>
    by_cases h1 : c = '{'
    · simp only [procChars, hitsZero, if_pos h1]
      exact ih (lvl + 1)
    · by_cases h2 : c = '}'
      · simp only [procChars, hitsZero, if_neg h1, if_pos h2]
        by_cases h3 : lvl - 1 = 0
        · cases allow with
          | false => simp [ih (lvl - 1)]
          | true => simp [h3]
        · simp [h3, ih (lvl - 1)]
      · simp only [procChars, hitsZero, if_neg h1, if_neg h2]
        exact ih lvl

theorem procChars_fst (cs : List Char) (lvl : Int) (allow : Bool)
    (h : (procChars cs lvl allow).2 = false) :
    (procChars cs lvl allow).1 = lvl + lineDelta cs := by
  induction cs generalizing lvl with
  | nil => simp [procChars, lineDelta]
  | cons c cs ih =>
    by_cases h1 : c = '{'
    · simp only [procChars, lineDelta, if_pos h1] at h ⊢
      rw [ih (lvl + 1) h]
      ring
    · by_cases h2 : c = '}'
      · simp only [procChars, lineDelta, if_neg h1, if_pos h2] at h ⊢
        by_cases h3 : (allow && decide (lvl - 1 = 0)) = true
        · rw [if_pos h3] at h
          simp at h
        · rw [if_neg h3] at h ⊢
          rw [ih (lvl - 1) h]
          ring
      · simp only [procChars, lineDelta, if_neg h1, if_neg h2] at h ⊢
        rw [ih lvl h]
        ring

theorem levelFrom_succ (lines : List String) (start i : Nat) (h : start ≤ i) :
    levelFrom lines start (i + 1) =
      levelFrom lines start i + lineDelta (lines.getD i "").data := by
  unfold levelFrom
  have h1 : i + 1 - start = (i - start) + 1 := by omega
  rw [h1, List.range'_concat, List.foldl_append]
  simp only [List.foldl_cons, List.foldl_nil]
  have h2 : start + 1 * (i - start) = i := by omega
  rw [h2]

theorem findEndGo_some (lines : List String) (start : Nat) :
    ∀ (rest : List String) (i : Nat) (lvl : Int) (j : Nat),
      rest = lines.drop i → start ≤ i → lvl = levelFrom lines start i →
      findEndGo start rest i lvl = some j →
      i ≤ j ∧ ClosesAt lines start j ∧
        ∀ k, i ≤ k → k < j → ¬ClosesAt lines start k := by
  intro rest
  induction rest with
  | nil =>
    intro i lvl j _hrest _hle _hlvl heq
    simp [findEndGo] at heq
  | cons line rest' ih =>
    intro i lvl j hrest hle hlvl heq
    have hilen : i < lines.length := by
      have := congrArg List.length hrest
      simp [List.length_drop] at this
      omega
    have hline : lines.getD i "" = line := by
      have h0 : (lines.drop i)[0]? = some line := by
        rw [← hrest]
        simp
      rw [List.getElem?_drop] at h0
      simp only [Nat.add_zero] at h0
      simp [List.getD_eq_getElem?_getD, h0]
    have hrest' : rest' = lines.drop (i + 1) := by
      rw [← List.tail_drop, ← hrest]
      rfl
    simp only [findEndGo] at heq
    by_cases hp : (procChars line.data lvl (decide (start < i))).2 = true
    · rw [if_pos hp] at heq
      injection heq with hji
      subst hji
      have hfound := procChars_snd line.data lvl (decide (start < i))
      rw [hp] at hfound
      have hcond : start < i ∧ hitsZero line.data lvl = true := by
        constructor
        · by_contra hns
          rw [show decide (start < i) = false by simpa using hns] at hfound
          simp at hfound
        · by_contra hnz
          rw [show hitsZero line.data lvl = false by simpa using hnz] at hfound
          simp at hfound
      refine ⟨Nat.le_refl _, ⟨hcond.1, hilen, ?_⟩, ?_⟩
      · rw [hline, ← hlvl]
        exact hcond.2
      · intro k hk1 hk2
        omega
    · rw [if_neg hp] at heq
      have hp' : (procChars line.data lvl (decide (start < i))).2 = false := by
        simpa using hp
      have hlvl' : (procChars line.data lvl (decide (start < i))).1 =
          levelFrom lines start (i + 1) := by
        rw [procChars_fst _ _ _ hp', levelFrom_succ lines start i hle, hlvl, hline]
      obtain ⟨h1, h2, h3⟩ := ih (i + 1) _ j hrest' (by omega) hlvl' heq
      refine ⟨by omega, h2, ?_⟩
      intro k hk1 hk2
      by_cases hki : k = i
      · subst hki
        intro hcl
        obtain ⟨hsk, _hklen, hhz⟩ := hcl
        have hfound := procChars_snd line.data lvl (decide (start < k))
        rw [hp'] at hfound
        rw [hline, ← hlvl] at hhz
        rw [show decide (start < k) = true by simpa using hsk, hhz] at hfound
        simp at hfound
      · exact h3 k (by omega) hk2

theorem findEndGo_none (lines : List String) (start : Nat) :
    ∀ (rest : List String) (i : Nat) (lvl : Int),
      rest = lines.drop i → start ≤ i → lvl = levelFrom lines start i →
      findEndGo start rest i lvl = none →
      ∀ k, i ≤ k → ¬ClosesAt lines start k := by
  intro rest
  induction rest with
  | nil =>
    intro i lvl hrest _hle _hlvl _heq k hk
    have hlen : lines.length ≤ i := by
      have := congrArg List.length hrest
      simp [List.length_drop] at this
      omega
    intro hcl
    have := hcl.2.1
    omega
  | cons line rest' ih =>
    intro i lvl hrest hle hlvl heq
    have hline : lines.getD i "" = line := by
      have h0 : (lines.drop i)[0]? = some line := by
        rw [← hrest]
        simp
      rw [List.getElem?_drop] at h0
      simp only [Nat.add_zero] at h0
      simp [List.getD_eq_getElem?_getD, h0]
    have hrest' : rest' = lines.drop (i + 1) := by
      rw [← List.tail_drop, ← hrest]
      rfl
    simp only [findEndGo] at heq
    by_cases hp : (procChars line.data lvl (decide (start < i))).2 = true
    · rw [if_pos hp] at heq
      cases heq
    · rw [if_neg hp] at heq
      have hp' : (procChars line.data lvl (decide (start < i))).2 = false := by
        simpa using hp
      have hlvl' : (procChars line.data lvl (decide (start < i))).1 =
          levelFrom lines start (i + 1) := by
        rw [procChars_fst _ _ _ hp', levelFrom_succ lines start i hle, hlvl, hline]
      intro k hk
      by_cases hki : k = i
      · subst hki
        intro hcl
        obtain ⟨hsk, _hklen, hhz⟩ := hcl
        have hfound := procChars_snd line.data lvl (decide (start < k))
        rw [hp'] at hfound
        rw [hline, ← hlvl] at hhz
        rw [show decide (start < k) = true by simpa using hsk, hhz] at hfound
        simp at hfound
      · exact ih (i + 1) _ hrest' (by omega) hlvl' heq k (by omega)

theorem findFunctionStart_zero (lines : List String) :
    findFunctionStart lines 0 =
      if isFunctionLine (lines.getD 0 "") then some 0 else none := rfl

theorem findFunctionStart_succ (lines : List String) (n : Nat) :
    findFunctionStart lines (n + 1) =
      if isFunctionLine (lines.getD (n + 1) "") then some (n + 1)
      else findFunctionStart lines n := rfl

theorem ffs_le (lines : List String) :
    ∀ (cur st : Nat), findFunctionStart lines cur = some st →
      st ≤ cur ∧ isFunctionLine (lines.getD st "") = true ∧
        ∀ j, st < j → j ≤ cur → isFunctionLine (lines.getD j "") = false := by
  intro cur
  induction cur with
  | zero =>
    intro st h
    rw [findFunctionStart_zero] at h
    by_cases hc : isFunctionLine (lines.getD 0 "") = true
    · rw [if_pos hc] at h
      injection h with h'
      subst h'
      exact ⟨Nat.le_refl 0, hc, fun j hj1 hj2 => absurd (Nat.lt_of_lt_of_le hj1 hj2) (by omega)⟩
    · rw [if_neg hc] at h
      cases h
  | succ n ih =>
    intro st h
    rw [findFunctionStart_succ] at h
    by_cases hc : isFunctionLine (lines.getD (n + 1) "") = true
    · rw [if_pos hc] at h
      injection h with h'
      subst h'
      exact ⟨Nat.le_refl _, hc, fun j hj1 hj2 => absurd (Nat.lt_of_lt_of_le hj1 hj2) (by omega)⟩
    · rw [if_neg hc] at h
      obtain ⟨h1, h2, h3⟩ := ih st h
      refine ⟨by omega, h2, ?_⟩
      intro j hj1 hj2
      by_cases hj : j = n + 1
      · subst hj
        simpa using hc
      · exact h3 j hj1 (by omega)

theorem ffs_none (lines : List String) :
    ∀ (cur : Nat), findFunctionStart lines cur = none ↔
      ∀ i, i ≤ cur → isFunctionLine (lines.getD i "") = false := by
  intro cur
  induction cur with
  | zero =>
    rw [findFunctionStart_zero]
    by_cases hc : isFunctionLine (lines.getD 0 "") = true
    · rw [if_pos hc]
      constructor
      · intro h
        cases h
      · intro h
        exact absurd hc (by rw [h 0 (Nat.le_refl 0)]; simp)
    · rw [if_neg hc]
      constructor
      · intro _ i hi
        have : i = 0 := by omega
        subst this
        simpa using hc
      · intro _
        rfl
  | succ n ih =>
    rw [findFunctionStart_succ]
    by_cases hc : isFunctionLine (lines.getD (n + 1) "") = true
    · rw [if_pos hc]
      constructor
      · intro h
        cases h
      · intro h
        exact absurd hc (by rw [h (n + 1) (Nat.le_refl _)]; simp)
    · rw [if_neg hc, ih]
      constructor
      · intro h i hi
        by_cases hi' : i = n + 1
        · subst hi'
          simpa using hc
        · exact h i (by omega)
      · intro h i hi
        exact h i (by omega)

/-! ### Claim C5 -/

/-- **C5.**  The locator's function start is the nearest line at or above
the cursor satisfying the source's `isFunction` check (the loose head
pattern together with the `if`/`while`/`for`/`switch` exclusion): `none` is
returned exactly when no line at or above the cursor qualifies, and a
returned start line qualifies, lies at or above the cursor, and no
qualifying line lies strictly between it and the cursor. -/
theorem c5_claim (lines : List String) (cur : Nat) :
    (getCurrentFunctionScope lines cur = none ↔
      ∀ i, i ≤ cur → isFunctionLine (lines.getD i "") = false) ∧
    (∀ st en, getCurrentFunctionScope lines cur = some (st, en) →
      st ≤ cur ∧ isFunctionLine (lines.getD st "") = true ∧
        ∀ j, st < j → j ≤ cur → isFunctionLine (lines.getD j "") = false) := by
  constructor
  · rw [← ffs_none lines cur]
    unfold getCurrentFunctionScope
    cases h : findFunctionStart lines cur with
    | none => simp
    | some st => cases h2 : findEnd lines st <;> simp [h2]
  · intro st en hscope
    unfold getCurrentFunctionScope at hscope
    cases h : findFunctionStart lines cur with
    | none =>
      rw [h] at hscope
      dsimp only at hscope
      cases hscope
    | some st' =>
      rw [h] at hscope
      dsimp only at hscope
      cases h2 : findEnd lines st' with
      | some en' =>
        rw [h2] at hscope
        dsimp only at hscope
        obtain ⟨e1, _e2⟩ : st' = st ∧ en' = en := by
          simpa [Prod.ext_iff] using hscope
        subst e1
        exact ffs_le lines cur st' h
      | none =>
        rw [h2] at hscope
        dsimp only at hscope
        obtain ⟨e1, _e2⟩ : st' = st ∧ lines.length - 1 = en := by
          simpa [Prod.ext_iff] using hscope
        subst e1
        exact ffs_le lines cur st' h

theorem c5_witness :
    (0 ≤ 2 ∧
      isFunctionLine ((["int main(void)", "\x7b", "  int count = 0;", "\x7d"] :
        List String).getD 0 "") = true ∧
      ∀ j, 0 < j → j ≤ 2 →
        isFunctionLine ((["int main(void)", "\x7b", "  int count = 0;", "\x7d"] :
          List String).getD j "") = false) := by
  exact (c5_claim ["int main(void)", "\x7b", "  int count = 0;", "\x7d"] 2).2 0 3
    (by decide)

/-! ### Claim C6 -/

/-- **C6, counterexample.**  On the document `["f(x) { }", "int y;"]` with
the cursor on line 0, the tracked brace depth returns to zero (after having
been opened) already on the start line itself, but the source only accepts
a closing brace on a line strictly after the start line (`i > functionStart`),
so the locator returns end line 1 (the default: last line of the document),
not 0 as the claim's "first returns to zero after having been opened"
dictates. -/
theorem c6_counterexample :
    getCurrentFunctionScope ["f(x) \x7b \x7d", "int y;"] 0 = some (0, 1) ∧
    hitsZero ((["f(x) \x7b \x7d", "int y;"] : List String).getD 0 "").data 0 = true ∧
    (1 : Nat) ≠ 0 := by
  decide

/-- **C6 (amended).**  Whenever the locator returns a range `(st, en)` for a
cursor inside the document: `st ≤ en`, both indices are within document
bounds, and `en` is either the first line **strictly after** `st` on which
the brace depth (tracked character-by-character from the start of line `st`)
returns to exactly zero at a closing brace, or — when no such line exists —
the last line of the document. -/
theorem c6_claim (lines : List String) (cur st en : Nat)
    (hcur : cur < lines.length)
    (hscope : getCurrentFunctionScope lines cur = some (st, en)) :
    st ≤ en ∧ en < lines.length ∧
    ((ClosesAt lines st en ∧ ∀ k, k < en → ¬ClosesAt lines st k) ∨
     ((∀ k, ¬ClosesAt lines st k) ∧ en = lines.length - 1)) := by
  unfold getCurrentFunctionScope at hscope
  cases h : findFunctionStart lines cur with
  | none =>
    rw [h] at hscope
    dsimp only at hscope
    cases hscope
  | some st' =>
    rw [h] at hscope
    dsimp only at hscope
    have hstcur : st' ≤ cur := (ffs_le lines cur st' h).1
    cases h2 : findEnd lines st' with
    | some en' =>
      rw [h2] at hscope
      dsimp only at hscope
      obtain ⟨e1, e2⟩ : st' = st ∧ en' = en := by
        simpa [Prod.ext_iff] using hscope
      subst e1
      subst e2
      unfold findEnd at h2
      obtain ⟨hij, hcl, hmin⟩ :=
        findEndGo_some lines st' (lines.drop st') st' 0 en' rfl (Nat.le_refl st')
          (by simp [levelFrom]) h2
      refine ⟨hij, hcl.2.1, Or.inl ⟨hcl, ?_⟩⟩
      intro k hk
      by_cases hks : st' < k
      · exact hmin k (by omega) hk
      · intro hclk
        exact hks hclk.1
    | none =>
      rw [h2] at hscope
      dsimp only at hscope
      obtain ⟨e1, e2⟩ : st' = st ∧ lines.length - 1 = en := by
        simpa [Prod.ext_iff] using hscope
      subst e1
      unfold findEnd at h2
      have hnone :=
        findEndGo_none lines st' (lines.drop st') st' 0 rfl (Nat.le_refl st')
          (by simp [levelFrom]) h2
      refine ⟨by omega, by omega, Or.inr ⟨?_, e2.symm⟩⟩
      intro k
      by_cases hks : st' ≤ k
      · exact hnone k hks
      · intro hclk
        exact absurd hclk.1 (by omega)

theorem c6_witness :
    0 ≤ 3 ∧
    3 < (["int main(void)", "\x7b", "  int count = 0;", "\x7d"] : List String).length ∧
    ((ClosesAt ["int main(void)", "\x7b", "  int count = 0;", "\x7d"] 0 3 ∧
        ∀ k, k < 3 →
          ¬ClosesAt ["int main(void)", "\x7b", "  int count = 0;", "\x7d"] 0 k) ∨
     ((∀ k, ¬ClosesAt ["int main(void)", "\x7b", "  int count = 0;", "\x7d"] 0 k) ∧
        3 = (["int main(void)", "\x7b", "  int count = 0;", "\x7d"] :
          List String).length - 1)) := by
  exact c6_claim ["int main(void)", "\x7b", "  int count = 0;", "\x7d"] 2 0 3
    (by decide) (by decide)

/-! ### External-tool output parsing

`GLOBAL_OUTPUT_REGEX = /^(\S+)\s+(\d+)\s+(\S+)\s+(.+)$/` and the item
construction of `jumpToDefinition`.  On a trimmed line the regex matches
exactly when the line splits into four whitespace-separated fields
`SYMBOL LINENUMBER FILEPATH CODE...` with the second all digits; backtracking
of `\s+(.+)$` never changes the captured code field on trimmed input (the
line cannot end in whitespace), and `.` cannot match CR/LF, which the last
guard reflects.  The `label` field of the source's item
(`path.relative(rootPath, file)` plus the one-based line) is presentation
only and not modelled. -/

/-- The candidate record `{file, line, description}` built from a matched
line (`line` is the zero-based index, an `Int` because
`parseInt(lineNumStr) - 1` can be `-1` for line number 0). -/
structure CandidateItem where
  file : String
  line : Int
  description : String
deriving DecidableEq

/-- Matcher for `GLOBAL_OUTPUT_REGEX`: returns the four capture groups. -/
def matchGlobalOutput (l : List Char) :
    Option (List Char × List Char × List Char × List Char) :=
  let tok1 := l.takeWhile (fun c => !jsSpace c)
  let r1 := l.dropWhile (fun c => !jsSpace c)
  let ws1 := r1.takeWhile jsSpace
  let r2 := r1.dropWhile jsSpace
  let tok2 := r2.takeWhile (fun c => !jsSpace c)
  let r3 := r2.dropWhile (fun c => !jsSpace c)
  let ws2 := r3.takeWhile jsSpace
  let r4 := r3.dropWhile jsSpace
  let tok3 := r4.takeWhile (fun c => !jsSpace c)
  let r5 := r4.dropWhile (fun c => !jsSpace c)
  let ws3 := r5.takeWhile jsSpace
  let rest := r5.dropWhile jsSpace
  if tok1.isEmpty || ws1.isEmpty || tok2.isEmpty || !tok2.all Char.isDigit ||
      ws2.isEmpty || tok3.isEmpty || ws3.isEmpty || rest.isEmpty ||
      rest.any (fun c => c = '\r' || c = '\n')
  then none
  else some (tok1, tok2, tok3, rest)

/-- One line of the external tool's output mapped to a candidate
(`line.trim().match(GLOBAL_OUTPUT_REGEX)`; discard on no match; discard a
purely numeric file field; convert the 1-based line number to 0-based). -/
def parseGlobalLine (line : String) : Option CandidateItem :=
  match matchGlobalOutput (jsTrim line.data) with
  | none => none
  | some (_sym, lineNumStr, file, code) =>
    if file.all Char.isDigit then none
    else some { file := String.mk file
                line := (natOfDigits lineNumStr : Int) - 1
                description := String.mk (jsTrim code) }

/-- JS `String.prototype.split('\n')` on a character list. -/
def splitOnNewline : List Char → List (List Char)
  | [] => [[]]
  | c :: cs =>
    if c = '\n' then [] :: splitOnNewline cs
    else
      match splitOnNewline cs with
      | [] => [[c]]
      | l :: ls => (c :: l) :: ls

/-- `globalResult.trim().split('\n').filter(nonblank)` mapped through the
per-line parser, discarding unparsable lines. -/
def parseGlobalOutput (out : String) : List CandidateItem :=
  ((splitOnNewline (jsTrim out.data)).filter (fun l => !(jsTrim l).isEmpty)).filterMap
    (fun l => parseGlobalLine (String.mk l))

/-! ### Orchestration of `jumpToDefinition` -/

/-- User-visible outcome of one `jumpToDefinition` run. -/
inductive JumpOutcome where
  /-- The external tool produced usable items; they are shown/opened. -/
  | extResults (items : List CandidateItem)
  /-- The local fallback produced the items (`afterFailure` marks the
  catch path, which jumps directly to the first match). -/
  | localResults (items : List SymbolMatch) (afterFailure : Bool)
  /-- `showInformationMessage('No definition found ...')` (success path). -/
  | noDefInfo
  /-- `showErrorMessage('No definition found ... (global command failed)')`. -/
  | noDefError
deriving DecidableEq

/-- The local fallback: search the enclosing function scope when one is
found; if that yields nothing, search the whole document (the source runs
this same sequence in both the zero-results path and the catch path). -/
def localFallbackSearch (sym : String) (lines : List String) (cursor : Nat) :
    List SymbolMatch :=
  let scopedHits :=
    match getCurrentFunctionScope lines cursor with
    | some (s, e) => searchSymbolInRange sym lines s e
    | none => []
  if scopedHits = [] then searchSymbolInRange sym lines 0 (lines.length - 1)
  else scopedHits

/-- The definition-search orchestration: `extOutcome = some out` models a
successful `execSync`/`execGlobalAsync` with stdout `out`; `none` models a
non-zero exit or execution error (the `catch` path).  The presentation
mapping of local results to labelled items is not modelled. -/
def jumpToDefinitionModel (extOutcome : Option String) (lines : List String)
    (cursor : Nat) (sym : String) : JumpOutcome :=
  match extOutcome with
  | some out =>
    let items := parseGlobalOutput out
    if items = [] then
      let localItems := localFallbackSearch sym lines cursor
      if localItems = [] then .noDefInfo
      else .localResults localItems false
    else .extResults items
  | none =>
    let localItems := localFallbackSearch sym lines cursor
    if localItems = [] then .noDefError
    else .localResults localItems true

theorem localFallbackSearch_empty (sym : String) (lines : List String)
    (cursor : Nat) (h : localFallbackSearch sym lines cursor = []) :
    searchSymbolInRange sym lines 0 (lines.length - 1) = [] := by
  unfold localFallbackSearch at h
  by_cases hs :
      (match getCurrentFunctionScope lines cursor with
       | some (s, e) => searchSymbolInRange sym lines s e
       | none => []) = []
  · rw [if_pos hs] at h
    exact h
  · rw [if_neg hs] at h
    exact absurd h hs

/-! ### Claim C8 -/

/-- **C8.**  Parsing `"foo 42 src/bar.c    int foo(int x) {"` yields a
candidate with zero-based line index 41 and file `"src/bar.c"` (path
preserved); a line whose file field is purely numeric is discarded, as is
any line not of the `SYMBOL LINENUMBER FILEPATH CODE...` shape; and no
produced candidate ever carries a purely numeric file field. -/
theorem c8_claim :
    parseGlobalLine "foo 42 src/bar.c    int foo(int x) \x7b" =
      some { file := "src/bar.c", line := 41,
             description := "int foo(int x) \x7b" } ∧
    parseGlobalLine "foo 42 123 int foo(int x) \x7b" = none ∧
    parseGlobalLine "foo 42" = none ∧
    (∀ s it, parseGlobalLine s = some it → it.file.data.all Char.isDigit = false) := by
  refine ⟨by decide, by decide, by decide, ?_⟩
  intro s it h
  unfold parseGlobalLine at h
  cases hm : matchGlobalOutput (jsTrim s.data) with
  | none =>
    rw [hm] at h
    cases h
  | some g =>
    obtain ⟨t1, t2, t3, code⟩ := g
    rw [hm] at h
    dsimp only at h
    by_cases hd : t3.all Char.isDigit = true
    · rw [if_pos hd] at h
      cases h
    · rw [if_neg hd] at h
      injection h with h'
      rw [← h']
      simpa using hd

theorem c8_witness :
    ({ file := "src/bar.c", line := 41, description := "int foo(int x) \x7b" } :
        CandidateItem).file.data.all Char.isDigit = false := by
  exact c8_claim.2.2.2 "foo 42 src/bar.c    int foo(int x) \x7b" _ c8_claim.1

/-! ### Claim C7 -/

/-- **C7.**  Orchestration semantics: (1) when the external tool succeeds
with usable items, the outcome is exactly those items — the local fallback
is not consulted (the outcome does not depend on the document or cursor)
and no merging occurs; (2) an external failure triggers the local fallback
instead of propagating: the outcome is either nonempty local results or the
"no definition found" error; (3) a "no definition found" outcome (info or
error) occurs only when the whole-document local search is also empty. -/
theorem c7_claim :
    (∀ out d c sym, parseGlobalOutput out ≠ [] →
      jumpToDefinitionModel (some out) d c sym =
        JumpOutcome.extResults (parseGlobalOutput out)) ∧
    (∀ out d d' c c' sym, parseGlobalOutput out ≠ [] →
      jumpToDefinitionModel (some out) d c sym =
        jumpToDefinitionModel (some out) d' c' sym) ∧
    (∀ d c sym, jumpToDefinitionModel none d c sym = JumpOutcome.noDefError ∨
      ∃ items, items ≠ [] ∧
        jumpToDefinitionModel none d c sym = JumpOutcome.localResults items true) ∧
    (∀ e d c sym,
      (jumpToDefinitionModel e d c sym = JumpOutcome.noDefError ∨
        jumpToDefinitionModel e d c sym = JumpOutcome.noDefInfo) →
      searchSymbolInRange sym d 0 (d.length - 1) = []) := by
  have hext : ∀ out d c sym, parseGlobalOutput out ≠ [] →
      jumpToDefinitionModel (some out) d c sym =
        JumpOutcome.extResults (parseGlobalOutput out) := by
    intro out d c sym hne
    unfold jumpToDefinitionModel
    dsimp only
    rw [if_neg hne]
  refine ⟨hext, ?_, ?_, ?_⟩
  · intro out d d' c c' sym hne
    rw [hext out d c sym hne, hext out d' c' sym hne]
  · intro d c sym
    unfold jumpToDefinitionModel
    dsimp only
    by_cases hl : localFallbackSearch sym d c = []
    · left
      rw [if_pos hl]
    · right
      exact ⟨localFallbackSearch sym d c, hl, by rw [if_neg hl]⟩
  · intro e d c sym hout
    cases e with
    | none =>
      unfold jumpToDefinitionModel at hout
      dsimp only at hout
      by_cases hl : localFallbackSearch sym d c = []
      · exact localFallbackSearch_empty sym d c hl
      · rw [if_neg hl] at hout
        rcases hout with h | h <;> cases h
    | some out =>
      unfold jumpToDefinitionModel at hout
      dsimp only at hout
      by_cases hi : parseGlobalOutput out = []
      · rw [if_pos hi] at hout
        by_cases hl : localFallbackSearch sym d c = []
        · exact localFallbackSearch_empty sym d c hl
        · rw [if_neg hl] at hout
          rcases hout with h | h <;> cases h
      · rw [if_neg hi] at hout
        rcases hout with h | h <;> cases h

theorem c7_witness :
    jumpToDefinitionModel (some "foo 42 src/bar.c  int foo;") ["int q;"] 0 "q" =
      JumpOutcome.extResults (parseGlobalOutput "foo 42 src/bar.c  int foo;") ∧
    jumpToDefinitionModel (some "foo 42 src/bar.c  int foo;") ["int a;"] 0 "q" =
      jumpToDefinitionModel (some "foo 42 src/bar.c  int foo;") ["int b;"] 1 "q" ∧
    searchSymbolInRange "q" [] 0 ((List.length ([] : List String)) - 1) = [] := by
  refine ⟨c7_claim.1 _ ["int q;"] 0 "q" (by decide),
    c7_claim.2.1 _ ["int a;"] ["int b;"] 0 1 "q" (by decide), ?_⟩
  exact c7_claim.2.2.2 none [] 0 "q" (Or.inl (by decide))

end GtagsHopper
